import Mathlib

/-!
Verification of the html-tokenizer repository: a shallow embedding of the
tokenizer (`src/tokenizer.ts`, chunkers and attribute reader) and the parser
(`parser.ts`) over `List Char`, plus theorems checking the specification's
claims against it.

Conventions of the embedding:
- Strings are `List Char`.
- The position-anchored chunkers of the source take the *suffix* of the input
  that starts at the match position and return their captures together with
  the remaining suffix (the consumed length is the difference of the two
  lengths), instead of a `(length, captures)` record plus an index.
- The tokenizer's generator loop becomes a fuel-indexed recursion
  (`tokenizeGo`); `tokenize`/`parse` run it with fuel `2 * length + 1`,
  which is proved sufficient (`tokenizeGo_stable`).
-/

namespace HtmlTok

/-- Strings of the source are modelled as lists of characters. -/
abbrev Str := List Char

/-- Coerce a Lean string literal to the model's string type. -/
def str (s : String) : Str := s.data

/-! ## Character classes of the chunker regexes -/

/-- Character class `[a-z0-9-]` under the JavaScript `i` flag: ASCII letters
of either case, ASCII digits, and the hyphen.  Used by the opening- and
closing-tag chunkers. -/
def isTagNameChar (c : Char) : Bool :=
  decide (('a' ≤ c ∧ c ≤ 'z') ∨ ('A' ≤ c ∧ c ≤ 'Z') ∨ ('0' ≤ c ∧ c ≤ '9') ∨ c = '-')

/-- Character class `[a-z0-9\-_]` under the `i` flag (attribute names):
tag-name characters plus the underscore. -/
def isAttrNameChar (c : Char) : Bool :=
  isTagNameChar c || decide (c = '_')

/-- JavaScript's `\s` class: ASCII whitespace plus the Unicode space
characters recognised by the regex engine. -/
def isJsWs (c : Char) : Bool :=
  decide (c = ' ' ∨ c = '\t' ∨ c = '\n' ∨ c = '\r' ∨ c = '\x0b' ∨ c = '\x0c' ∨
    c.toNat = 0xA0 ∨ c.toNat = 0x1680 ∨ (0x2000 ≤ c.toNat ∧ c.toNat ≤ 0x200A) ∨
    c.toNat = 0x2028 ∨ c.toNat = 0x2029 ∨ c.toNat = 0x202F ∨ c.toNat = 0x205F ∨
    c.toNat = 0x3000 ∨ c.toNat = 0xFEFF)

/-! ## Chunkers

Each `chunker(regex)` of the source matches its regex at the given position
only.  Here each chunker receives the suffix starting at that position and
returns `none` exactly when the anchored regex fails. -/

/-- The name fragment `(([C]+:)?[C]+)` shared by the tag and attribute-name
regexes, with its backtracking semantics: take the maximal run of class
characters; if it is followed by a colon and at least one more class
character, the optional prefix group participates and the capture extends
over the second run (the class does not contain `:`, so no other
backtracking outcome is possible).  Returns the capture and the rest. -/
def matchName (cls : Char → Bool) (s : Str) : Option (Str × Str) :=
  if (s.takeWhile cls).isEmpty then none
  else
    match s.dropWhile cls with
    | ':' :: s2 =>
      if (s2.takeWhile cls).isEmpty then some (s.takeWhile cls, s.dropWhile cls)
      else some (s.takeWhile cls ++ ':' :: s2.takeWhile cls, s2.dropWhile cls)
    | s1 => some (s.takeWhile cls, s1)

/-- Chunker `getOpeningTag`, regex `(<(([a-z0-9-]+:)?[a-z0-9-]+))` with
flags `ig`: a `<` followed by a tag name.  Captures the name (original
case preserved); the closing `>` is not consumed. -/
def getOpeningTag : Str → Option (Str × Str)
  | '<' :: s1 => matchName isTagNameChar s1
  | _ => none

/-- Chunker `getText`, regex `([^<]+)`: a nonempty run of non-`<`
characters. -/
def getText (s : Str) : Option (Str × Str) :=
  let t := s.takeWhile (fun c => !(c == '<'))
  if t.isEmpty then none else some (t, s.dropWhile (fun c => !(c == '<')))

/-- Chunker `getClosingTag`, regex `(<\/(([a-z0-9-]+:)?[a-z0-9-]+)>)` with
flags `ig`: `</`, a tag name, `>`.  The name class does not contain `>`,
so the regex succeeds exactly when the maximal name parse is followed by
`>`. -/
def getClosingTag : Str → Option (Str × Str)
  | '<' :: '/' :: s1 =>
    match matchName isTagNameChar s1 with
    | some (name, rest) =>
      match rest with
      | '>' :: rest2 => some (name, rest2)
      | _ => none
    | none => none
  | _ => none

/-- Chunker `getCommentOpen`, regex `(<!--)`. -/
def getCommentOpen : Str → Option Str
  | '<' :: '!' :: '-' :: '-' :: rest => some rest
  | _ => none

/-- First occurrence of `pat` as a contiguous subsequence of `s`: returns the
part before the occurrence and the part after it.  Models the lazy regexes
`([\s\S]*?)-->` and `([\s\S]*?)<\/script>`. -/
def splitAtSub (pat : Str) : Str → Option (Str × Str)
  | [] => if pat.isEmpty then some ([], []) else none
  | c :: s' =>
    if pat.isPrefixOf (c :: s') then some ([], (c :: s').drop pat.length)
    else
      match splitAtSub pat s' with
      | some (b, a) => some (c :: b, a)
      | none => none

/-- Chunker `getComment`, regex `(([\s\S]*?)-->)`: everything up to and
including the first `-->`; captures the body without the `-->`. -/
def getComment (s : Str) : Option (Str × Str) := splitAtSub (str "-->") s

/-- Chunker `getScript`, regex `(([\s\S]*?)<\/script>)`: everything up to and
including the first case-sensitive `</script>`; captures the body. -/
def getScript (s : Str) : Option (Str × Str) := splitAtSub (str "</script>") s

/-- Chunker `getTagEnd`, regex `(\s*(\/?>))`: optional whitespace, then `/>`
or `>`.  Captures the terminator (neither `/` nor `>` is whitespace, so the
greedy `\s*` admits exactly one outcome). -/
def getTagEnd (s : Str) : Option (Str × Str) :=
  match s.dropWhile isJsWs with
  | '/' :: '>' :: rest => some (str "/>", rest)
  | '>' :: rest => some (str ">", rest)
  | _ => none

/-- Chunker `getAttributeName`, regex
`(\s+(([a-z0-9\-_]+:)?[a-z0-9\-_]+)(\s*=\s*)?)` with flags `ig`: mandatory
whitespace, an attribute name, optionally `=` surrounded by whitespace.
Returns the name, whether the `=` group participated (`match[4]` truthy),
and the rest. -/
def getAttributeName (s : Str) : Option (Str × Bool × Str) :=
  if (s.takeWhile isJsWs).isEmpty then none
  else
    match matchName isAttrNameChar (s.dropWhile isJsWs) with
    | some (name, rest) =>
      match rest.dropWhile isJsWs with
      | '=' :: rest2 => some (name, true, rest2.dropWhile isJsWs)
      | _ => some (name, false, rest)
    | none => none

/-! ## Attribute-value reader -/

/-- Result of `readAttribute`: the number of characters consumed from the
given suffix and the attribute value, mirroring the `{length, value}`
record of the source. -/
structure AttrRead where
  length : Nat
  value : Str
  deriving Repr, DecidableEq

/-- The source's `readAttribute(str, pos)`, applied to the suffix starting at
`pos`.  A leading `"` or `'` reads to the matching quote (or, if the quote
never recurs, to end of input, consuming everything); otherwise the regex
`(\s*([^>\s]*))` reads optional whitespace and an unquoted run. -/
def readAttribute (s : Str) : AttrRead :=
  match s with
  | [] => ⟨0, []⟩
  | c :: s1 =>
    if c = '"' ∨ c = '\'' then
      match s1.dropWhile (fun d => !(d == c)) with
      | [] => ⟨s1.length + 1, s1⟩
      | _ :: _ => ⟨(s1.takeWhile (fun d => !(d == c))).length + 2,
                   s1.takeWhile (fun d => !(d == c))⟩
    else
      let ws := s.takeWhile isJsWs
      let value := (s.dropWhile isJsWs).takeWhile (fun d => !isJsWs d && !(d == '>'))
      ⟨ws.length + value.length, value⟩

/-! ## Tokens and the tokenizer state machine -/

/-- Low-level tokens (`Token` in the source).  The source's `attribute`
token is called `attr` here (`attribute` is a Lean keyword). -/
inductive Token where
  | start
  | openingTag (name : Str)
  | attr (name value : Str)
  | openingTagEnd (name : Str) (tok : Str)
  | text (t : Str)
  | comment (t : Str)
  | closingTag (name : Str)
  | done
  deriving Repr, DecidableEq

/-- Tokenizer states (`State` in the source). -/
inductive TkState where
  | inText
  | inTag
  | inComment
  | inScript
  deriving Repr, DecidableEq

/-- Result of one iteration of the `_tokenize` loop body: either continue
with new position/state, or terminate the loop (a `break` of the source). -/
inductive StepRes where
  | stop (out : List Token)
  | cont (out : List Token) (rest : Str) (st : TkState) (tag : Str)
  deriving Repr, DecidableEq

/-- One iteration of the `while` loop of `Tokenizer._tokenize`, for a
nonempty remaining suffix `s`.  The source's `isBracket` test is a cheap
pre-emptive check only: each of the three chunkers behind it matches only
at `<`, so dropping the test selects the same branch.  In `inText` the
branch order (opening tag, closing tag, comment open, text, one-character
fallback) is that of the source. -/
def tokStep (s : Str) (st : TkState) (tag : Str) : StepRes :=
  match st with
  | TkState.inText =>
    match getOpeningTag s with
    | some (name, rest) => StepRes.cont [Token.openingTag name] rest TkState.inTag name
    | none =>
      match getClosingTag s with
      | some (name, rest) => StepRes.cont [Token.closingTag name] rest TkState.inText tag
      | none =>
        match getCommentOpen s with
        | some rest => StepRes.cont [] rest TkState.inComment tag
        | none =>
          match getText s with
          | some (t, rest) => StepRes.cont [Token.text t] rest TkState.inText tag
          | none => StepRes.cont [Token.text (s.take 1)] (s.drop 1) TkState.inText tag
  | TkState.inComment =>
    match getComment s with
    | some (body, rest) => StepRes.cont [Token.comment body] rest TkState.inText tag
    | none => StepRes.stop [Token.comment s]
  | TkState.inScript =>
    match getScript s with
    | some (body, rest) =>
      StepRes.cont [Token.text body, Token.closingTag (str "script")] rest TkState.inText tag
    | none => StepRes.stop [Token.text s]
  | TkState.inTag =>
    match getAttributeName s with
    | some (name, hasVal, rest) =>
      if hasVal then
        StepRes.cont [Token.attr name (readAttribute rest).value]
          (rest.drop (readAttribute rest).length) TkState.inTag tag
      else
        StepRes.cont [Token.attr name []] rest TkState.inTag tag
    | none =>
      match getTagEnd s with
      | some (tok, rest) =>
        StepRes.cont [Token.openingTagEnd tag tok] rest
          (if tag = str "script" then TkState.inScript else TkState.inText) tag
      | none => StepRes.cont [] s TkState.inText tag

/-- The `while (pos < html.length)` loop of `Tokenizer._tokenize`, indexed by
fuel; `tokenizeGo_stable` shows any fuel of at least `2 * s.length + 1`
yields the loop's actual output. -/
def tokenizeGo : Nat → Str → TkState → Str → List Token
  | 0, _, _, _ => []
  | _, [], _, _ => []
  | fuel + 1, c :: s', st, tag =>
    match tokStep (c :: s') st tag with
    | StepRes.stop out => out
    | StepRes.cont out rest st' tag' => out ++ tokenizeGo fuel rest st' tag'

/-- Fuel sufficient for any run of the tokenizer loop on input `s`. -/
def canonFuel (s : Str) : Nat := 2 * s.length + 1

/-- `Tokenizer._tokenize`: `start`, the loop tokens, `done`. -/
def tokenizeRaw (html : Str) : List Token :=
  Token.start :: (tokenizeGo (canonFuel html) html TkState.inText [] ++ [Token.done])

/-- The text-coalescing wrapper loop of `Tokenizer.tokenize`: `buf` is
`currentText` (`none` = `undefined`; `some []` = the falsy empty string,
which is neither emitted nor reset, exactly as in the source). -/
def coalesce : List Token → Option Str → List Token
  | [], _ => []
  | Token.text t :: rest, none => coalesce rest (some t)
  | Token.text t :: rest, some cur => coalesce rest (some (cur ++ t))
  | tkn :: rest, some cur =>
    if cur.isEmpty then tkn :: coalesce rest (some cur)
    else Token.text cur :: tkn :: coalesce rest none
  | tkn :: rest, none => tkn :: coalesce rest none

/-- `Tokenizer.tokenize`: the raw token stream with adjacent text tokens
coalesced. -/
def tokenize (html : Str) : List Token := coalesce (tokenizeRaw html) none

/-! ## Static tables of the parser -/

/-- `SELF_CLOSING_TAGS`: the void elements. -/
def SELF_CLOSING_TAGS : List Str :=
  [str "area", str "base", str "br", str "col", str "command", str "embed",
   str "hr", str "img", str "input", str "keygen", str "link", str "meta",
   str "param", str "source", str "track", str "wbr"]

/-- `CLOSED_BY_PARENTS`: tags auto-closed when a closing tag for their
parent is encountered. -/
def CLOSED_BY_PARENTS : List Str :=
  [str "p", str "li", str "dd", str "rb", str "rt", str "rtc", str "rp",
   str "optgroup", str "option", str "tbody", str "tfoot", str "tr",
   str "td", str "th"]

/-- `CLOSED_BY_SIBLINGS`: the *own* properties of the plain object literal:
for a tag `T` in the table, the set of tags whose opening implicitly
closes an open `T` on top of the stack.  `none` means no own property; a
lookup that misses every own key still consults the prototype chain, which
`isClosedBy` models separately. -/
def CLOSED_BY_SIBLINGS (tag : Str) : Option (List Str) :=
  if tag = str "p" then
    some [str "address", str "article", str "aside", str "blockquote",
          str "div", str "dl", str "fieldset", str "footer", str "form",
          str "h1", str "h2", str "h3", str "h4", str "h5", str "h6",
          str "header", str "hgroup", str "hr", str "main", str "nav",
          str "ol", str "p", str "pre", str "section", str "table", str "ul"]
  else if tag = str "li" then some [str "li"]
  else if tag = str "dt" then some [str "dt", str "dd"]
  else if tag = str "dd" then some [str "dt", str "dd"]
  else if tag = str "rb" then some [str "rb", str "rt", str "rtc", str "rp"]
  else if tag = str "rt" then some [str "rb", str "rt", str "rtc", str "rp"]
  else if tag = str "rtc" then some [str "rb", str "rtc", str "rp"]
  else if tag = str "rp" then some [str "rb", str "rt", str "rtc", str "rp"]
  else if tag = str "optgroup" then some [str "optgroup"]
  else if tag = str "option" then some [str "option", str "optgroup"]
  else if tag = str "thead" then some [str "tbody", str "tfoot"]
  else if tag = str "tbody" then some [str "tbody", str "tfoot"]
  else if tag = str "tfoot" then some [str "tbody"]
  else if tag = str "tr" then some [str "tr"]
  else if tag = str "td" then some [str "td", str "th"]
  else if tag = str "th" then some [str "td", str "th"]
  else none

/-- `isSelfClosing(tag)`: membership in the void-element set. -/
def isSelfClosing (tag : Str) : Bool := SELF_CLOSING_TAGS.contains tag

/-- The member names of `Object.prototype` in the V8 runtime the source
targets.  A plain-object lookup `CLOSED_BY_SIBLINGS[tag]` that misses every
own key still finds these inherited members; the resulting value is not
nullish yet has no `has` method. -/
def OBJECT_PROTOTYPE_MEMBERS : List Str :=
  [str "constructor", str "hasOwnProperty", str "isPrototypeOf",
   str "propertyIsEnumerable", str "toLocaleString", str "toString",
   str "valueOf", str "__proto__", str "__defineGetter__",
   str "__defineSetter__", str "__lookupGetter__", str "__lookupSetter__"]

/-- `isClosedBy(tag, otherTag)`, i.e.
`CLOSED_BY_SIBLINGS[tag]?.has(otherTag) ?? false`.  `some b` is a normal
return: an own `Set` answers the membership test, and a genuinely absent
key gives `undefined`, so `?.` short-circuits and `?? false` yields
`false`.  `none` models the `TypeError` the expression throws when the
lookup finds an inherited `Object.prototype` member instead: that value is
not nullish, so `?.` proceeds and calls the missing `has` method. -/
def isClosedBy (tag otherTag : Str) : Option Bool :=
  match CLOSED_BY_SIBLINGS tag with
  | some s => some (s.contains otherTag)
  | none =>
    if OBJECT_PROTOTYPE_MEMBERS.contains tag then none
    else some false

/-- `isClosedByParent(tag)`: membership in `CLOSED_BY_PARENTS`. -/
def isClosedByParent (tag : Str) : Bool := CLOSED_BY_PARENTS.contains tag

/-! ## Parser data model -/

/-- The `Attributes` object: a JavaScript object used as an ordered
name-to-value map, modelled as an association list in insertion order. -/
abbrev Attrs := List (Str × Str)

/-- Insertion-ordered upsert into the own-property table: an existing key
keeps its position and gets the new value (last-wins); a new key is
appended. -/
def upsertAttr : Attrs → Str → Str → Attrs
  | [], key, val => [(key, val)]
  | (k, v) :: rest, key, val =>
    if k = key then (k, val) :: rest else (k, v) :: upsertAttr rest key val

/-- Assignment `attributes[name] = value` on a plain JavaScript object
(`pendingTag.attributes[tkn.name] = tkn.value` in the source).  The key
`__proto__` invokes the inherited `Object.prototype.__proto__` accessor,
whose setter silently ignores primitive values — attribute values are
always strings — so nothing is stored; every other key becomes or updates
an own property (last-wins, insertion order kept). -/
def setAttr (attrs : Attrs) (key val : Str) : Attrs :=
  if key = str "__proto__" then attrs else upsertAttr attrs key val

/-- Decimal digit test for array-index keys. -/
def isDigit (c : Char) : Bool := decide ('0' ≤ c ∧ c ≤ '9')

/-- Numeric value of a digit string. -/
def digitsVal (s : Str) : Nat := s.foldl (fun n c => n * 10 + (c.toNat - 48)) 0

/-- Array-index keys in the ECMAScript sense: the canonical decimal form
(no leading zero except `0` itself) of an integer below `2^32 - 1`.  A
plain object enumerates such own keys in ascending numeric order before
all other string keys. -/
def isArrayIndex (s : Str) : Bool :=
  s.all isDigit && !s.isEmpty &&
    (decide (s = str "0") || decide (s.headD '0' ≠ '0')) &&
    decide (digitsVal s < 4294967295)

/-- Insert an array-index entry into a numerically sorted list. -/
def insertIndexed (p : Str × Str) : Attrs → Attrs
  | [] => [p]
  | q :: rest =>
    if digitsVal p.1 ≤ digitsVal q.1 then p :: q :: rest
    else q :: insertIndexed p rest

/-- Sort array-index entries in ascending numeric order. -/
def sortIndexed : Attrs → Attrs
  | [] => []
  | p :: rest => insertIndexed p (sortIndexed rest)

/-- Own-property enumeration order of a plain JavaScript object, the order
observed by `Object.keys`, `for...in` and `JSON.stringify` over the
`attributes` object: array-index keys in ascending numeric order first,
then the remaining string keys in insertion order. -/
def enumAttrs (attrs : Attrs) : Attrs :=
  sortIndexed (attrs.filter (fun p => isArrayIndex p.1)) ++
    attrs.filter (fun p => !isArrayIndex p.1)

/-- Property read `attributes[name]` (as used by consumers of the map). -/
def lookupAttr : Attrs → Str → Option Str
  | [], _ => none
  | (k, v) :: rest, key => if k = key then some v else lookupAttr rest key

/-- A `PendingTag` frame of the parser stack. -/
structure PendingTag where
  name : Str
  attributes : Attrs
  deriving Repr, DecidableEq

/-- High-level parse events (`ParseToken` in the source); the source's
`open`/`close` cases are called `openTag`/`closeTag` here (`open` is a
Lean keyword). -/
inductive ParseToken where
  | openTag (name : Str) (attributes : Attrs) (selfClosing : Bool)
  | text (t : Str)
  | comment (t : Str)
  | closeTag (name : Str) (selfClosing : Bool)
  deriving Repr, DecidableEq

/-! ## Parser

The parser loop of `Parser.parse` handles one tokenizer token at a time;
`parseStep` is the loop body, returning the events it yields together with
the updated stack (head = top) and building frame.  The source never
resets `pendingTag` after an `opening-tag-end` and shares the mutable
`attributes` object with the pushed frame; inside a single `parse` run the
tokenizer emits `attribute` tokens only between an `opening-tag` (which
replaces `pendingTag`) and its `opening-tag-end`, so the sharing is
unobservable and the functional update used here agrees with the source on
every reachable token stream. -/

/-- One iteration of the `for (const tkn of tkzr.tokenize(html))` body.
`none` models the `TypeError` that `isClosedBy` throws on an inherited
`Object.prototype` member: it is raised before anything is yielded in the
step (the `isClosedBy` call guards the first `yield` of the branch), so a
throwing step contributes no events. -/
def parseStep (tkn : Token) (stack : List PendingTag) (pending : Option PendingTag) :
    Option (List ParseToken × List PendingTag × Option PendingTag) :=
  match tkn with
  | Token.start => some ([], stack, pending)
  | Token.done => some ([], stack, pending)
  | Token.openingTag name => some ([], stack, some ⟨name, []⟩)
  | Token.attr name value =>
    match pending with
    | some pt => some ([], stack, some ⟨pt.name, setAttr pt.attributes name value⟩)
    | none => some ([], stack, pending)
  | Token.text t => some ([ParseToken.text t], stack, pending)
  | Token.comment t => some ([ParseToken.comment t], stack, pending)
  | Token.closingTag name =>
    match stack with
    | [] => some ([], stack, pending)
    | current :: rest =>
      if current.name = name then
        some ([ParseToken.closeTag current.name false], rest, pending)
      else
        match rest with
        | parent :: rest2 =>
          if parent.name = name ∧ isClosedByParent current.name = true then
            some ([ParseToken.closeTag current.name false,
              ParseToken.closeTag parent.name false], rest2, pending)
          else some ([], stack, pending)
        | [] => some ([], stack, pending)
  | Token.openingTagEnd name tok =>
    match pending with
    | none => some ([ParseToken.text tok], stack, pending)
    | some pt =>
      let isSelfClose : Bool := decide (tok = str "/>") || isSelfClosing name
      match stack with
      | top :: rest =>
        match isClosedBy top.name pt.name with
        | none => none
        | some b =>
          if b then
            some (ParseToken.closeTag top.name false ::
               ParseToken.openTag pt.name pt.attributes isSelfClose ::
               (if isSelfClose then [ParseToken.closeTag pt.name true] else []),
             if isSelfClose then rest else pt :: rest, some pt)
          else
            some (ParseToken.openTag pt.name pt.attributes isSelfClose ::
               (if isSelfClose then [ParseToken.closeTag pt.name true] else []),
             if isSelfClose then top :: rest else pt :: top :: rest, some pt)
      | [] =>
        some (ParseToken.openTag pt.name pt.attributes isSelfClose ::
           (if isSelfClose then [ParseToken.closeTag pt.name true] else []),
         if isSelfClose then [] else [pt], some pt)

/-- The parser loop over a token stream followed by the end-of-input drain
(`stack.drain()` pops top to bottom, emitting a non-self-closing close for
each remaining frame).  The Boolean records whether the run aborted with
the uncaught `TypeError`: the events yielded before the throw stand, the
rest of the token stream is not consumed, and the drain never runs. -/
def parseGo : List Token → List PendingTag → Option PendingTag → List ParseToken × Bool
  | [], stack, _ => (stack.map (fun pt => ParseToken.closeTag pt.name false), false)
  | tkn :: rest, stack, pending =>
    match parseStep tkn stack pending with
    | none => ([], true)
    | some (out, stack', pending') =>
      match parseGo rest stack' pending' with
      | (evs, threw) => (out ++ evs, threw)

/-- `Parser.parse`: run the parser loop over the coalesced token stream,
starting with an empty stack and no building frame.  The result is the
sequence of events the iterator yields, paired with whether iteration
ended in the uncaught `TypeError` rather than normal completion. -/
def parse (html : Str) : List ParseToken × Bool := parseGo (tokenize html) [] none

/-! ## Definitions used by the verification theorems -/

/-- Extra weight of the `inTag` state: its no-match branch returns to
`inText` without consuming input, every other branch consumes at least one
character. -/
def stBonus (st : TkState) : Nat := if st = TkState.inTag then 1 else 0

/-- Strictly decreasing measure of the tokenizer loop. -/
def tkMeasure (s : Str) (st : TkState) : Nat := 2 * s.length + stBonus st

def closeRun : List ParseToken → List Str → Option (List Str)
  | [], st => some st
  | ParseToken.openTag n _ _ :: rest, st => closeRun rest (n :: st)
  | ParseToken.closeTag n _ :: rest, st =>
    match st with
    | [] => none
    | m :: st' => if n = m then closeRun rest st' else none
  | ParseToken.text _ :: rest, st => closeRun rest st
  | ParseToken.comment _ :: rest, st => closeRun rest st

def closeCheck (l : List ParseToken) (st : List Str) : Bool :=
  match closeRun l st with
  | some r => r.isEmpty
  | none => false

def isTextTok : Token → Bool
  | Token.text _ => true
  | _ => false

/-- No two adjacent elements of the list are both text tokens. -/
def noTwoTexts : List Token → Bool
  | [] => true
  | [_] => true
  | a :: b :: rest => !(isTextTok a && isTextTok b) && noTwoTexts (b :: rest)

/-- Analog of `isTextTok` for parse events. -/
def isTextEvent : ParseToken → Bool
  | ParseToken.text _ => true
  | _ => false

/-- No two adjacent elements of the parse-event list are both text. -/
def noTwoTextEvents : List ParseToken → Bool
  | [] => true
  | [_] => true
  | a :: b :: rest => !(isTextEvent a && isTextEvent b) && noTwoTextEvents (b :: rest)

/-! ## Progress facts about the chunkers -/

theorem length_dropWhile_le (p : Char → Bool) (l : Str) :
    (l.dropWhile p).length ≤ l.length := by
  conv_rhs => rw [← List.takeWhile_append_dropWhile p l]
  rw [List.length_append]
  omega

theorem length_dropWhile_lt {p : Char → Bool} {l : Str} (h : l.takeWhile p ≠ []) :
    (l.dropWhile p).length < l.length := by
  conv_rhs => rw [← List.takeWhile_append_dropWhile p l]
  rw [List.length_append]
  have := List.length_pos.mpr h
  omega

theorem matchName_rest_length {cls : Char → Bool} {s name rest : Str}
    (h : matchName cls s = some (name, rest)) : rest.length < s.length := by
  have hlt : s.takeWhile cls ≠ [] → (s.dropWhile cls).length < s.length :=
    fun hn => length_dropWhile_lt hn
  rw [matchName] at h
  split at h
  · exact absurd h (by simp)
  · rename_i hne
    have hd : (s.dropWhile cls).length < s.length :=
      hlt (by simpa [List.isEmpty_iff] using hne)
    split at h
    · rename_i s2 heq
      have h2 := congrArg List.length heq
      simp only [List.length_cons] at h2
      split at h
      · cases h
        omega
      · cases h
        have h3 : (s2.dropWhile cls).length ≤ s2.length := length_dropWhile_le _ _
        omega
    · cases h
      omega

theorem getOpeningTag_rest_length {s name rest : Str}
    (h : getOpeningTag s = some (name, rest)) : rest.length < s.length := by
  rw [getOpeningTag.eq_def] at h
  split at h
  · rename_i s1
    have := matchName_rest_length h
    simp only [List.length_cons]
    omega
  · exact absurd h (by simp)

theorem getClosingTag_rest_length {s name rest : Str}
    (h : getClosingTag s = some (name, rest)) : rest.length < s.length := by
  rw [getClosingTag.eq_def] at h
  split at h
  · rename_i s1
    split at h
    · rename_i name' rest' hm
      split at h
      · rename_i rest2
        cases h
        have h1 := matchName_rest_length hm
        simp only [List.length_cons] at h1 ⊢
        omega
      · exact absurd h (by simp)
    · exact absurd h (by simp)
  · exact absurd h (by simp)

theorem getCommentOpen_rest_length {s rest : Str}
    (h : getCommentOpen s = some rest) : rest.length < s.length := by
  rw [getCommentOpen.eq_def] at h
  split at h
  · rename_i r
    cases h
    simp only [List.length_cons]
    omega
  · exact absurd h (by simp)

theorem getText_rest_length {s t rest : Str}
    (h : getText s = some (t, rest)) : rest.length < s.length := by
  rw [getText] at h
  split at h
  · exact absurd h (by simp)
  · rename_i hne
    cases h
    exact length_dropWhile_lt (by simpa [List.isEmpty_iff] using hne)

theorem splitAtSub_length {pat : Str} : ∀ {s b a : Str},
    splitAtSub pat s = some (b, a) → a.length + pat.length ≤ s.length := by
  intro s
  induction s with
  | nil =>
    intro b a h
    rw [splitAtSub] at h
    split at h
    · rename_i hp
      cases h
      simp [List.isEmpty_iff] at hp
      simp [hp]
    · exact absurd h (by simp)
  | cons c s' ih =>
    intro b a h
    rw [splitAtSub] at h
    split at h
    · rename_i hp
      cases h
      have hpre : pat <+: (c :: s') := List.isPrefixOf_iff_prefix.mp hp
      have := hpre.length_le
      rw [List.length_drop]
      omega
    · split at h
      · rename_i b' a' heq
        cases h
        have := ih heq
        simp only [List.length_cons]
        omega
      · exact absurd h (by simp)

theorem splitAtSub_rest_length {pat s b a : Str} (hpat : pat ≠ [])
    (h : splitAtSub pat s = some (b, a)) : a.length < s.length := by
  have h1 := splitAtSub_length h
  have h2 := List.length_pos.mpr hpat
  omega

theorem getComment_rest_length {s body rest : Str}
    (h : getComment s = some (body, rest)) : rest.length < s.length :=
  splitAtSub_rest_length (by decide) h

theorem getScript_rest_length {s body rest : Str}
    (h : getScript s = some (body, rest)) : rest.length < s.length :=
  splitAtSub_rest_length (by decide) h

theorem getTagEnd_rest_length {s tok rest : Str}
    (h : getTagEnd s = some (tok, rest)) : rest.length < s.length := by
  have hd : (s.dropWhile isJsWs).length ≤ s.length := length_dropWhile_le _ _
  rw [getTagEnd] at h
  split at h
  · rename_i rest' heq
    cases h
    have := congrArg List.length heq
    simp only [List.length_cons] at this
    omega
  · rename_i rest' heq
    cases h
    have := congrArg List.length heq
    simp only [List.length_cons] at this
    omega
  · exact absurd h (by simp)

theorem getAttributeName_rest_length {s name rest : Str} {hasVal : Bool}
    (h : getAttributeName s = some (name, hasVal, rest)) : rest.length < s.length := by
  rw [getAttributeName] at h
  split at h
  · exact absurd h (by simp)
  · rename_i hws
    have h0 : (s.dropWhile isJsWs).length < s.length :=
      length_dropWhile_lt (by simpa [List.isEmpty_iff] using hws)
    split at h
    · rename_i nm rst hm
      have h1 := matchName_rest_length hm
      split at h
      · rename_i rest2 heq
        cases h
        have h2 : (rest2.dropWhile isJsWs).length ≤ rest2.length := length_dropWhile_le _ _
        have h3 := congrArg List.length heq
        simp only [List.length_cons] at h3
        have h4 : (rst.dropWhile isJsWs).length ≤ rst.length := length_dropWhile_le _ _
        omega
      · cases h
        omega
    · exact absurd h (by simp)

/-! ## Termination of the tokenizer loop -/
theorem stBonus_le_one (st : TkState) : stBonus st ≤ 1 := by
  rw [stBonus]
  split <;> omega

theorem tokStep_cont_lt {s : Str} {st : TkState} {tag rest : Str} {st' : TkState}
    {outl : List Token} {tag' : Str}
    (h : tokStep s st tag = StepRes.cont outl rest st' tag') (hs : s ≠ []) :
    tkMeasure rest st' < tkMeasure s st := by
  have hlen : 0 < s.length := List.length_pos.mpr hs
  rw [tokStep.eq_def] at h
  cases st
  case inText =>
    simp only at h
    split at h
    · rename_i name r hm
      cases h
      have := getOpeningTag_rest_length hm
      simp [tkMeasure, stBonus]
      omega
    · split at h
      · rename_i name r hm
        cases h
        have := getClosingTag_rest_length hm
        simp [tkMeasure, stBonus]
        omega
      · split at h
        · rename_i r hm
          cases h
          have := getCommentOpen_rest_length hm
          simp [tkMeasure, stBonus]
          omega
        · split at h
          · rename_i t r hm
            cases h
            have := getText_rest_length hm
            simp [tkMeasure, stBonus]
            omega
          · cases h
            have : (s.drop 1).length = s.length - 1 := List.length_drop 1 s
            simp [tkMeasure, stBonus]
            omega
  case inComment =>
    simp only at h
    split at h
    · rename_i body r hm
      cases h
      have := getComment_rest_length hm
      simp [tkMeasure, stBonus]
      omega
    · exact absurd h (by simp)
  case inScript =>
    simp only at h
    split at h
    · rename_i body r hm
      cases h
      have := getScript_rest_length hm
      simp [tkMeasure, stBonus]
      omega
    · exact absurd h (by simp)
  case inTag =>
    simp only at h
    split at h
    · rename_i name hasVal r hm
      have hr := getAttributeName_rest_length hm
      split at h
      · cases h
        have : (r.drop (readAttribute r).length).length ≤ r.length := by
          rw [List.length_drop]
          omega
        simp [tkMeasure, stBonus]
        omega
      · cases h
        simp [tkMeasure, stBonus]
        omega
    · split at h
      · rename_i tok r hm
        cases h
        have := getTagEnd_rest_length hm
        have hb := stBonus_le_one (if tag = str "script" then TkState.inScript else TkState.inText)
        simp only [tkMeasure]
        simp only [tkMeasure, stBonus] at *
        omega
      · cases h
        simp [tkMeasure, stBonus]

theorem tokenizeGo_nil (f : Nat) (st : TkState) (tag : Str) :
    tokenizeGo f [] st tag = [] := by
  cases f <;> rfl

/-- Fuel-independence of the tokenizer loop: any fuel of at least
`tkMeasure` computes the loop's unique output. -/
theorem tokenizeGo_stable : ∀ (n : Nat) (s : Str) (st : TkState) (tag : Str) (f1 f2 : Nat),
    tkMeasure s st ≤ n → tkMeasure s st ≤ f1 → tkMeasure s st ≤ f2 →
    tokenizeGo f1 s st tag = tokenizeGo f2 s st tag := by
  intro n
  induction n with
  | zero =>
    intro s st tag f1 f2 hn _ _
    have hs : s = [] := by
      rw [tkMeasure] at hn
      cases s with
      | nil => rfl
      | cons c s' => simp [List.length_cons] at hn
    subst hs
    rw [tokenizeGo_nil, tokenizeGo_nil]
  | succ n ih =>
    intro s st tag f1 f2 hn h1 h2
    cases s with
    | nil => rw [tokenizeGo_nil, tokenizeGo_nil]
    | cons c s' =>
      have hs : (c :: s') ≠ [] := by simp
      have hpos : 2 ≤ tkMeasure (c :: s') st := by
        rw [tkMeasure]
        simp [List.length_cons]
        omega
      cases f1 with
      | zero => omega
      | succ g1 =>
        cases f2 with
        | zero => omega
        | succ g2 =>
          rw [tokenizeGo, tokenizeGo]
          cases hstep : tokStep (c :: s') st tag with
          | stop out => rfl
          | cont out rest st' tag' =>
            have hlt := tokStep_cont_lt hstep hs
            show out ++ tokenizeGo g1 rest st' tag' = out ++ tokenizeGo g2 rest st' tag'
            exact congrArg (out ++ ·) (ih rest st' tag' g1 g2 (by omega) (by omega) (by omega))

/-! ## Well-nesting of the parse-event stream

`closeRun` replays a parse-event list against a stack of expected names:
an `openTag` pushes its name, a `closeTag` must match the top name exactly
and pops it, anything else is skipped; `none` signals a mismatched or
unmatched close.  `closeCheck l st = true` says the whole list closes, in
last-in-first-out order, exactly the opens it contains plus the initially
open names `st`. -/

theorem closeRun_append (a b : List ParseToken) : ∀ st : List Str,
    closeRun (a ++ b) st = (closeRun a st).bind (fun st' => closeRun b st') := by
  induction a with
  | nil => intro st; rfl
  | cons e rest ih =>
    intro st
    cases e with
    | openTag n attrs sc => exact ih (n :: st)
    | text t => exact ih st
    | comment t => exact ih st
    | closeTag n sc =>
      cases st with
      | nil => rfl
      | cons m st' =>
        by_cases hnm : n = m
        · show (if n = m then closeRun (rest ++ b) st' else none) = _
          rw [if_pos hnm]
          show _ = (if n = m then closeRun rest st' else none).bind _
          rw [if_pos hnm]
          exact ih st'
        · show (if n = m then closeRun (rest ++ b) st' else none) = _
          rw [if_neg hnm]
          show _ = (if n = m then closeRun rest st' else none).bind _
          rw [if_neg hnm]
          rfl

/-- A non-throwing step's events transform the name stack exactly as the
parser's frame stack is transformed. -/
theorem parseStep_closeRun {tkn : Token} {stack stack' : List PendingTag}
    {pending pending' : Option PendingTag} {out : List ParseToken}
    (h : parseStep tkn stack pending = some (out, stack', pending')) :
    closeRun out (stack.map PendingTag.name) = some (stack'.map PendingTag.name) := by
  cases tkn with
  | start => cases h; rfl
  | done => cases h; rfl
  | openingTag name => cases h; rfl
  | attr n v =>
    cases pending with
    | some pt => cases h; rfl
    | none => cases h; rfl
  | text t => cases h; rfl
  | comment t => cases h; rfl
  | closingTag name =>
    cases stack with
    | nil => cases h; rfl
    | cons current rest =>
      by_cases hc : current.name = name
      · simp only [parseStep, if_pos hc] at h
        cases h
        simp [closeRun]
      · cases rest with
        | nil =>
          simp only [parseStep, if_neg hc] at h
          cases h
          rfl
        | cons parent rest2 =>
          by_cases hp : parent.name = name ∧ isClosedByParent current.name = true
          · simp only [parseStep, if_neg hc, if_pos hp] at h
            cases h
            simp [closeRun]
          · simp only [parseStep, if_neg hc, if_neg hp] at h
            cases h
            rfl
  | openingTagEnd name tok =>
    cases pending with
    | none => cases h; rfl
    | some pt =>
      cases stack with
      | nil =>
        cases hsc : (decide (tok = str "/>") || isSelfClosing name) with
        | true =>
          simp only [parseStep, hsc] at h
          cases h
          simp [closeRun]
        | false =>
          simp only [parseStep, hsc] at h
          cases h
          simp [closeRun]
      | cons top rest =>
        cases hcb : isClosedBy top.name pt.name with
        | none =>
          simp only [parseStep, hcb] at h
          exact Option.noConfusion h
        | some b =>
          cases b with
          | true =>
            cases hsc : (decide (tok = str "/>") || isSelfClosing name) with
            | true =>
              simp only [parseStep, hcb, hsc, if_pos] at h
              cases h
              simp [closeRun]
            | false =>
              simp only [parseStep, hcb, hsc, if_pos] at h
              cases h
              simp [closeRun]
          | false =>
            cases hsc : (decide (tok = str "/>") || isSelfClosing name) with
            | true =>
              simp only [parseStep, hcb, hsc] at h
              cases h
              simp [closeRun]
            | false =>
              simp only [parseStep, hcb, hsc] at h
              cases h
              simp [closeRun]

/-- Replaying the drain closes every remaining frame, deepest child
first. -/
theorem drain_closeRun (stack : List PendingTag) :
    closeRun (stack.map fun pt => ParseToken.closeTag pt.name false)
      (stack.map PendingTag.name) = some [] := by
  induction stack with
  | nil => rfl
  | cons pt rest ih =>
    show (if pt.name = pt.name then _ else none) = some []
    rw [if_pos rfl]
    exact ih

/-- Well-nesting of every run of the parser loop that completes without
the `TypeError`. -/
theorem parseGo_closeCheck : ∀ (toks : List Token) (stack : List PendingTag)
    (pending : Option PendingTag),
    (parseGo toks stack pending).2 = false →
    closeCheck (parseGo toks stack pending).1 (stack.map PendingTag.name) = true := by
  intro toks
  induction toks with
  | nil =>
    intro stack pending _
    show closeCheck (stack.map fun pt => ParseToken.closeTag pt.name false) _ = true
    rw [closeCheck, drain_closeRun]
    rfl
  | cons tkn rest ih =>
    intro stack pending hok
    cases hstep : parseStep tkn stack pending with
    | none =>
      have hgo : parseGo (tkn :: rest) stack pending = ([], true) := by
        show (match parseStep tkn stack pending with
              | none => ([], true)
              | some (out, stack', pending') =>
                match parseGo rest stack' pending' with
                | (evs, threw) => (out ++ evs, threw)) = ([], true)
        rw [hstep]
      rw [hgo] at hok
      exact absurd hok (by simp)
    | some res =>
      obtain ⟨out, stack', pending'⟩ := res
      have hgo : parseGo (tkn :: rest) stack pending =
          (out ++ (parseGo rest stack' pending').1, (parseGo rest stack' pending').2) := by
        show (match parseStep tkn stack pending with
              | none => ([], true)
              | some (out, stack', pending') =>
                match parseGo rest stack' pending' with
                | (evs, threw) => (out ++ evs, threw)) = _
        rw [hstep]
      rw [hgo] at hok ⊢
      rw [closeCheck, closeRun_append, parseStep_closeRun hstep, Option.some_bind]
      exact ih stack' pending' hok

/-! ## No adjacent text tokens after coalescing -/

theorem noTwoTexts_cons {a : Token} {l : List Token} (ha : isTextTok a = false)
    (hl : noTwoTexts l = true) : noTwoTexts (a :: l) = true := by
  cases l with
  | nil => rfl
  | cons b r =>
    show (!(isTextTok a && isTextTok b) && noTwoTexts (b :: r)) = true
    rw [ha, hl]
    rfl

theorem coalesce_cons_nontext (tkn : Token) (rest : List Token) (buf : Option Str)
    (hnt : isTextTok tkn = false) :
    coalesce (tkn :: rest) buf =
      match buf with
      | some cur =>
        if cur.isEmpty then tkn :: coalesce rest (some cur)
        else Token.text cur :: tkn :: coalesce rest none
      | none => tkn :: coalesce rest none := by
  cases tkn <;> cases buf
  all_goals first
    | rfl
    | simp [isTextTok] at hnt

theorem coalesce_noTwoTexts : ∀ (toks : List Token) (buf : Option Str),
    noTwoTexts (coalesce toks buf) = true := by
  intro toks
  induction toks with
  | nil => intro buf; rfl
  | cons tkn rest ih =>
    intro buf
    cases tkn
    case text t => cases buf <;> exact ih _
    all_goals
      rw [coalesce_cons_nontext _ _ _ (by rfl)]
      cases buf with
      | none => exact noTwoTexts_cons (by rfl) (ih none)
      | some cur =>
        dsimp only
        by_cases hc : cur.isEmpty = true
        · rw [if_pos hc]
          exact noTwoTexts_cons (by rfl) (ih (some cur))
        · rw [if_neg hc]
          simp only [noTwoTexts, isTextTok, Bool.true_and, Bool.and_false,
            Bool.not_false, Bool.false_and]
          exact noTwoTexts_cons (by rfl) (ih none)


/-! ## Single-step unfolding helpers for the tokenizer loop -/

theorem tokenizeGo_cons_cont {f : Nat} {s : Str} {st : TkState} {tag : Str}
    {out : List Token} {rest : Str} {st' : TkState} {tag' : Str} (hs : s ≠ [])
    (h : tokStep s st tag = StepRes.cont out rest st' tag') :
    tokenizeGo (f + 1) s st tag = out ++ tokenizeGo f rest st' tag' := by
  obtain ⟨c, s', rfl⟩ : ∃ c s', s = c :: s' := by
    cases s with
    | nil => exact absurd rfl hs
    | cons c s' => exact ⟨c, s', rfl⟩
  rw [tokenizeGo, h]

theorem tokenizeGo_cons_stop {f : Nat} {s : Str} {st : TkState} {tag : Str}
    {out : List Token} (hs : s ≠ [])
    (h : tokStep s st tag = StepRes.stop out) :
    tokenizeGo (f + 1) s st tag = out := by
  obtain ⟨c, s', rfl⟩ : ∃ c s', s = c :: s' := by
    cases s with
    | nil => exact absurd rfl hs
    | cons c s' => exact ⟨c, s', rfl⟩
  rw [tokenizeGo, h]

/-- The sibling-close lookup throws only on tags naming an inherited
`Object.prototype` member. -/
theorem isClosedBy_none {tag otherTag : Str} (h : isClosedBy tag otherTag = none) :
    OBJECT_PROTOTYPE_MEMBERS.contains tag = true := by
  rw [isClosedBy] at h
  cases hT : CLOSED_BY_SIBLINGS tag with
  | some s =>
    rw [hT] at h
    exact Option.noConfusion h
  | none =>
    rw [hT] at h
    by_cases hm : OBJECT_PROTOTYPE_MEMBERS.contains tag = true
    · exact hm
    · rw [if_neg hm] at h
      exact Option.noConfusion h

/-! ## Claim theorems -/
/-! ## Claim theorems -/

/-- C1 (a code bug breaks it): well-nesting holds for every run that
completes, but the parser is not total.  On `<constructor><p>` the
sibling-close lookup hits the inherited `Object.prototype.constructor`
and throws the `TypeError`, so the stream ends at `open constructor` with
no close and no drain; for every input on which `parse` does not throw,
the output replays against an initially empty stack, every close matching
the most recent unmatched open, ending with the stack empty. -/
theorem parse_well_nested_unless_thrown :
    parse (str "<constructor><p>") =
      ([ParseToken.openTag (str "constructor") [] false], true) ∧
    (∀ html : Str, (parse html).2 = false → closeCheck (parse html).1 [] = true) := by
  constructor
  · decide
  · intro html h
    exact parseGo_closeCheck (tokenize html) [] none h

theorem parse_well_nested_unless_thrown_witness :
    (parse (str "<p>")).2 = false ∧ closeCheck (parse (str "<p>")).1 [] = true :=
  ⟨by decide, parse_well_nested_unless_thrown.2 (str "<p>") (by decide)⟩

/-- C2 counterexample: the claim fails on the code.  For the input
`a</x>b` the unmatched closing tag `</x>` is dropped silently and the
parser emits two consecutive `text` events (completing normally). -/
theorem parse_adjacent_texts_counterexample :
    parse (str "a</x>b") =
      ([ParseToken.text (str "a"), ParseToken.text (str "b")], false) ∧
    noTwoTextEvents (parse (str "a</x>b")).1 = false := by
  exact ⟨by decide, by decide⟩

/-- C2 amended: it is the tokenizer stream that never contains two
consecutive `text` tokens (runs of text are coalesced before emission);
the parser's output can contain consecutive `Text` events when a silently
dropped token lies between two text tokens. -/
theorem tokenize_no_adjacent_texts (html : Str) : noTwoTexts (tokenize html) = true :=
  coalesce_noTwoTexts (tokenizeRaw html) none

/-- C3: on an `OpeningTagEnd` token, when the top-of-stack frame is
closed-by-sibling for the new tag (a genuine table membership, so the
lookup returns normally), the parser first pops it and emits its
non-self-closing close, then emits the open of the new tag; and concretely
`parse("<p><div>")` yields open `p`, close `p`, open `div`, close `div`. -/
theorem sibling_close_on_opening_tag_end :
    (∀ (top : PendingTag) (st : List PendingTag) (pt : PendingTag) (name tok : Str),
      isClosedBy top.name pt.name = some true →
      parseStep (Token.openingTagEnd name tok) (top :: st) (some pt) =
        some (ParseToken.closeTag top.name false ::
           ParseToken.openTag pt.name pt.attributes
             (decide (tok = str "/>") || isSelfClosing name) ::
           (if (decide (tok = str "/>") || isSelfClosing name) then
              [ParseToken.closeTag pt.name true] else []),
         (if (decide (tok = str "/>") || isSelfClosing name) then st else pt :: st),
         some pt)) ∧
    parse (str "<p><div>") =
      ([ParseToken.openTag (str "p") [] false, ParseToken.closeTag (str "p") false,
        ParseToken.openTag (str "div") [] false, ParseToken.closeTag (str "div") false],
       false) := by
  constructor
  · intro top st pt name tok h
    simp [parseStep, h]
  · decide

theorem sibling_close_on_opening_tag_end_witness :
    isClosedBy (str "p") (str "div") = some true ∧
    parseStep (Token.openingTagEnd (str "div") (str ">"))
        [⟨str "p", []⟩] (some ⟨str "div", []⟩) =
      some (ParseToken.closeTag (str "p") false ::
         ParseToken.openTag (str "div") []
           (decide ((str ">") = str "/>") || isSelfClosing (str "div")) ::
         (if (decide ((str ">") = str "/>") || isSelfClosing (str "div")) then
            [ParseToken.closeTag (str "div") true] else []),
       (if (decide ((str ">") = str "/>") || isSelfClosing (str "div")) then []
        else [(⟨str "div", []⟩ : PendingTag)]),
       some ⟨str "div", []⟩) :=
  ⟨by decide,
   sibling_close_on_opening_tag_end.1 ⟨str "p", []⟩ [] ⟨str "div", []⟩
     (str "div") (str ">") (by decide)⟩

/-- C4: on a `ClosingTag` token the parser pops and closes the top frame
when its name matches; otherwise, when the frame below matches and the top
frame is closed-by-parent, it pops and closes both (top first); otherwise
it emits nothing (none of these branches can throw); and concretely
`parse("<ul><li><li></ul>a")` is the expected event list. -/
theorem closing_tag_rules :
    (∀ (name : Str) (current : PendingTag) (rest : List PendingTag)
      (pending : Option PendingTag), current.name = name →
      parseStep (Token.closingTag name) (current :: rest) pending =
        some ([ParseToken.closeTag current.name false], rest, pending)) ∧
    (∀ (name : Str) (current parent : PendingTag) (rest2 : List PendingTag)
      (pending : Option PendingTag),
      current.name ≠ name → parent.name = name → isClosedByParent current.name = true →
      parseStep (Token.closingTag name) (current :: parent :: rest2) pending =
        some ([ParseToken.closeTag current.name false,
           ParseToken.closeTag parent.name false], rest2, pending)) ∧
    (∀ (name : Str) (current parent : PendingTag) (rest2 : List PendingTag)
      (pending : Option PendingTag),
      current.name ≠ name → ¬(parent.name = name ∧ isClosedByParent current.name = true) →
      parseStep (Token.closingTag name) (current :: parent :: rest2) pending =
        some ([], current :: parent :: rest2, pending)) ∧
    (∀ (name : Str) (current : PendingTag) (pending : Option PendingTag),
      current.name ≠ name →
      parseStep (Token.closingTag name) [current] pending =
        some ([], [current], pending)) ∧
    (∀ (name : Str) (pending : Option PendingTag),
      parseStep (Token.closingTag name) [] pending = some ([], [], pending)) ∧
    parse (str "<ul><li><li></ul>a") =
      ([ParseToken.openTag (str "ul") [] false, ParseToken.openTag (str "li") [] false,
        ParseToken.closeTag (str "li") false, ParseToken.openTag (str "li") [] false,
        ParseToken.closeTag (str "li") false, ParseToken.closeTag (str "ul") false,
        ParseToken.text (str "a")], false) := by
  refine ⟨?_, ?_, ?_, ?_, ?_, by decide⟩
  · intro name current rest pending h
    simp [parseStep, h]
  · intro name current parent rest2 pending hc hp hcp
    simp [parseStep, hc, hp, hcp]
  · intro name current parent rest2 pending hc hnp
    simp [parseStep, hc, hnp]
  · intro name current pending hc
    simp [parseStep, hc]
  · intro name pending
    rfl

theorem closing_tag_rules_witness :
    parseStep (Token.closingTag (str "p")) [⟨str "p", []⟩] none =
      some ([ParseToken.closeTag (str "p") false], [], none) :=
  closing_tag_rules.1 (str "p") ⟨str "p", []⟩ [] none rfl

/-- C5: in raw-text mode, everything up to and including the first
case-sensitive `</script>` is emitted as one `text` token followed by a
`closing-tag script` token; without such an occurrence the remainder is
one `text` token and the run ends; and the concrete nested-script example
parses as the spec states. -/
theorem script_raw_text :
    (∀ (f : Nat) (s tag body rest : Str), getScript s = some (body, rest) →
      tokenizeGo (f + 1) s TkState.inScript tag =
        Token.text body :: Token.closingTag (str "script") ::
          tokenizeGo f rest TkState.inText tag) ∧
    (∀ (f : Nat) (s tag : Str), getScript s = none → s ≠ [] →
      tokenizeGo (f + 1) s TkState.inScript tag = [Token.text s]) ∧
    parse (str "<script>alert(\"</script>\")</script>") =
      ([ParseToken.openTag (str "script") [] false, ParseToken.text (str "alert(\""),
        ParseToken.closeTag (str "script") false, ParseToken.text (str "\")")],
       false) := by
  refine ⟨?_, ?_, by decide⟩
  · intro f s tag body rest h
    have hs : s ≠ [] := by
      intro he
      rw [he, show getScript ([] : Str) = none from by decide] at h
      exact Option.noConfusion h
    have hstep : tokStep s TkState.inScript tag =
        StepRes.cont [Token.text body, Token.closingTag (str "script")]
          rest TkState.inText tag := by
      rw [tokStep.eq_def]
      dsimp only
      rw [h]
    simpa using tokenizeGo_cons_cont (f := f) hs hstep
  · intro f s tag h hne
    refine tokenizeGo_cons_stop hne ?_
    rw [tokStep.eq_def]
    dsimp only
    rw [h]

theorem script_raw_text_witness :
    getScript (str "</script>") = some ([], []) ∧
    tokenizeGo 1 (str "</script>") TkState.inScript [] =
      Token.text [] :: Token.closingTag (str "script") ::
        tokenizeGo 0 [] TkState.inText [] :=
  ⟨by decide, script_raw_text.1 0 (str "</script>") [] [] [] (by decide)⟩

/-- C6 counterexample: the claim fails on the code twice over: on empty
input `Tokenizer.tokenize` yields the `start` and `done` bookkeeping
tokens, not an empty stream; and `Parser.parse` is not total: on
`<constructor><p>` it aborts with the `TypeError` thrown inside
`isClosedBy`. -/
theorem empty_input_counterexample :
    tokenize (str "") ≠ [] ∧ tokenize (str "") = [Token.start, Token.done] ∧
    (parse (str "<constructor><p>")).2 = true := by
  exact ⟨by decide, by decide, by decide⟩

/-- C6 amended: the tokenizer is a total function on arbitrary inputs, and
the parser's only failure is the `TypeError` arising when a sibling-close
lookup is made with a stack-top tag named after an inherited
`Object.prototype` member — the only step that can abort is an
`OpeningTagEnd` with a building frame and such a stack top; on empty input
`parse` yields an empty event stream (completing normally) and `tokenize`
yields exactly the `start` and `done` markers with no content tokens. -/
theorem empty_input_behavior :
    parse (str "") = ([], false) ∧
    tokenize (str "") = [Token.start, Token.done] ∧
    (∀ (tkn : Token) (stack : List PendingTag) (pending : Option PendingTag),
      parseStep tkn stack pending = none →
      ∃ (name tok : Str) (pt top : PendingTag) (rest : List PendingTag),
        tkn = Token.openingTagEnd name tok ∧ pending = some pt ∧
        stack = top :: rest ∧
        OBJECT_PROTOTYPE_MEMBERS.contains top.name = true ∧
        isClosedBy top.name pt.name = none) := by
  refine ⟨by decide, by decide, ?_⟩
  intro tkn stack pending h
  cases tkn with
  | start => exact Option.noConfusion h
  | done => exact Option.noConfusion h
  | openingTag name => exact Option.noConfusion h
  | text t => exact Option.noConfusion h
  | comment t => exact Option.noConfusion h
  | attr n v =>
    cases pending with
    | some pt => exact Option.noConfusion h
    | none => exact Option.noConfusion h
  | closingTag name =>
    cases stack with
    | nil => exact Option.noConfusion h
    | cons current rest =>
      by_cases hc : current.name = name
      · simp only [parseStep, if_pos hc] at h
        exact Option.noConfusion h
      · cases rest with
        | nil =>
          simp only [parseStep, if_neg hc] at h
          exact Option.noConfusion h
        | cons parent rest2 =>
          by_cases hp : parent.name = name ∧ isClosedByParent current.name = true
          · simp only [parseStep, if_neg hc, if_pos hp] at h
            exact Option.noConfusion h
          · simp only [parseStep, if_neg hc, if_neg hp] at h
            exact Option.noConfusion h
  | openingTagEnd name tok =>
    cases pending with
    | none => exact Option.noConfusion h
    | some pt =>
      cases stack with
      | nil =>
        cases hsc : (decide (tok = str "/>") || isSelfClosing name) with
        | true =>
          simp only [parseStep, hsc] at h
          exact Option.noConfusion h
        | false =>
          simp only [parseStep, hsc] at h
          exact Option.noConfusion h
      | cons top rest =>
        cases hcb : isClosedBy top.name pt.name with
        | none =>
          exact ⟨name, tok, pt, top, rest, rfl, rfl, rfl, isClosedBy_none hcb, hcb⟩
        | some b =>
          cases b with
          | true =>
            simp only [parseStep, hcb] at h
            cases hsc : (decide (tok = str "/>") || isSelfClosing name) with
            | true => rw [hsc] at h; exact Option.noConfusion h
            | false => rw [hsc] at h; exact Option.noConfusion h
          | false =>
            simp only [parseStep, hcb] at h
            cases hsc : (decide (tok = str "/>") || isSelfClosing name) with
            | true => rw [hsc] at h; exact Option.noConfusion h
            | false => rw [hsc] at h; exact Option.noConfusion h

theorem empty_input_behavior_witness :
    parseStep (Token.openingTagEnd (str "x") (str ">"))
        [(⟨str "constructor", []⟩ : PendingTag)] (some ⟨str "p", []⟩) = none ∧
    (∃ (name tok : Str) (pt top : PendingTag) (rest : List PendingTag),
      Token.openingTagEnd (str "x") (str ">") = Token.openingTagEnd name tok ∧
      (some (⟨str "p", []⟩ : PendingTag) : Option PendingTag) = some pt ∧
      ([(⟨str "constructor", []⟩ : PendingTag)] : List PendingTag) = top :: rest ∧
      OBJECT_PROTOTYPE_MEMBERS.contains top.name = true ∧
      isClosedBy top.name pt.name = none) :=
  ⟨by decide, empty_input_behavior.2.2 _ _ _ (by decide)⟩

/-- C7 counterexample: the claim fails on the code.  The attribute
`__proto__='x'` appears between the opener and the tag end of
`<br __proto__='x'>`, yet the assignment invokes the inherited accessor
and stores nothing, so the `Open` event's mapping is empty; and for
`<br 1 0>` the own-property table records source order `1, 0` while the
object enumerates its array-index keys in ascending numeric order `0, 1`,
so the observable mapping is not in source order. -/
theorem attribute_claim_counterexample :
    (parse (str "<br __proto__='x'>")).1 =
      [ParseToken.openTag (str "br") [] true, ParseToken.closeTag (str "br") true] ∧
    (parse (str "<br 1 0>")).1 =
      [ParseToken.openTag (str "br") [(str "1", []), (str "0", [])] true,
       ParseToken.closeTag (str "br") true] ∧
    enumAttrs [(str "1", []), (str "0", [])] = [(str "0", []), (str "1", [])] := by
  exact ⟨by decide, by decide, by decide⟩

/-- C7 amended: a quoted value whose closing quote is missing takes
everything after the opening quote and consumes the rest of the input; the
assignment `attributes[name] = value` silently stores nothing for the key
`__proto__` and otherwise is last-wins for the value, leaves other keys
unchanged and keeps first-occurrence insertion order in the own-property
table (array-index keys enumerate numerically first, per `enumAttrs`); a
valueless attribute is tokenized with value `""`; and a concrete parse
with a duplicate and a valueless attribute produces the expected map. -/
theorem attribute_semantics :
    (∀ (q : Char) (s1 : Str), (q = '"' ∨ q = '\'') → q ∉ s1 →
      readAttribute (q :: s1) = ⟨s1.length + 1, s1⟩) ∧
    (∀ (attrs : Attrs) (v : Str), setAttr attrs (str "__proto__") v = attrs) ∧
    (∀ (attrs : Attrs) (k v : Str), k ≠ str "__proto__" →
      lookupAttr (setAttr attrs k v) k = some v) ∧
    (∀ (attrs : Attrs) (k k' v : Str), k' ≠ k →
      lookupAttr (setAttr attrs k v) k' = lookupAttr attrs k') ∧
    (∀ (attrs : Attrs) (k v : Str), k ≠ str "__proto__" →
      (setAttr attrs k v).map Prod.fst =
        if k ∈ attrs.map Prod.fst then attrs.map Prod.fst
        else attrs.map Prod.fst ++ [k]) ∧
    (∀ (f : Nat) (s tag name rest : Str),
      getAttributeName s = some (name, false, rest) →
      tokenizeGo (f + 1) s TkState.inTag tag =
        Token.attr name [] :: tokenizeGo f rest TkState.inTag tag) ∧
    parse (str "<br a b='2' a='3'>") =
      ([ParseToken.openTag (str "br") [(str "a", str "3"), (str "b", str "2")] true,
        ParseToken.closeTag (str "br") true], false) := by
  refine ⟨?_, ?_, ?_, ?_, ?_, ?_, by decide⟩
  · intro q s1 hq hqn
    simp only [readAttribute, if_pos hq]
    have hd : s1.dropWhile (fun d => !(d == q)) = [] := by
      rw [List.dropWhile_eq_nil_iff]
      intro x hx
      have hne : x ≠ q := fun he => hqn (he ▸ hx)
      simp [hne]
    rw [hd]
  · intro attrs v
    rw [setAttr, if_pos rfl]
  · intro attrs k v hk
    rw [setAttr, if_neg hk]
    induction attrs with
    | nil => simp [upsertAttr, lookupAttr]
    | cons p rest ih =>
      obtain ⟨a, b⟩ := p
      by_cases hp : a = k
      · simp [upsertAttr, hp, lookupAttr]
      · simp [upsertAttr, hp, lookupAttr, ih]
  · intro attrs k k' v hk
    by_cases hproto : k = str "__proto__"
    · rw [setAttr, if_pos hproto]
    · rw [setAttr, if_neg hproto]
      induction attrs with
      | nil => simp [upsertAttr, lookupAttr, Ne.symm hk]
      | cons p rest ih =>
        obtain ⟨a, b⟩ := p
        by_cases hp : a = k
        · subst hp
          simp [upsertAttr, lookupAttr, Ne.symm hk]
        · simp [upsertAttr, hp, lookupAttr, ih]
  · intro attrs k v hk
    rw [setAttr, if_neg hk]
    induction attrs with
    | nil => simp [upsertAttr]
    | cons p rest ih =>
      obtain ⟨a, b⟩ := p
      by_cases hp : a = k
      · simp [upsertAttr, hp]
      · have hne : ¬ k = a := fun h => hp h.symm
        by_cases hm : k ∈ rest.map Prod.fst
        · simp [upsertAttr, hp, hm, hne] at ih ⊢
          exact ih
        · simp [upsertAttr, hp, hm, hne] at ih ⊢
          exact ih
  · intro f s tag name rest h
    have hs : s ≠ [] := by
      intro he
      rw [he, show getAttributeName ([] : Str) = none from by decide] at h
      exact Option.noConfusion h
    have hstep : tokStep s TkState.inTag tag =
        StepRes.cont [Token.attr name []] rest TkState.inTag tag := by
      rw [tokStep.eq_def]
      dsimp only
      rw [h]
      rfl
    simpa using tokenizeGo_cons_cont (f := f) hs hstep

theorem attribute_semantics_witness :
    ('"' = '"' ∨ '"' = '\'') ∧ ('"' ∉ str "ab") ∧
    readAttribute ('"' :: str "ab") = ⟨(str "ab").length + 1, str "ab"⟩ :=
  ⟨Or.inl rfl, by decide, attribute_semantics.1 '"' (str "ab") (Or.inl rfl) (by decide)⟩

/-- C8: tag names are captured with their original case, the
implicit-close tables are lowercase and looked up case-sensitively, so for
`<P><DIV>` no sibling-close fires: `P` is neither an own key of the table
nor an inherited `Object.prototype` member, so the lookup returns `false`
normally, the tokenizer captures `P` and `DIV` verbatim, and `P` is closed
only by the drain after `DIV` closes. -/
theorem case_sensitive_tables :
    CLOSED_BY_SIBLINGS (str "P") = none ∧
    isClosedBy (str "P") (str "DIV") = some false ∧
    tokenize (str "<P><DIV>") =
      [Token.start, Token.openingTag (str "P"), Token.openingTagEnd (str "P") (str ">"),
       Token.openingTag (str "DIV"), Token.openingTagEnd (str "DIV") (str ">"),
       Token.done] ∧
    parse (str "<P><DIV>") =
      ([ParseToken.openTag (str "P") [] false, ParseToken.openTag (str "DIV") [] false,
        ParseToken.closeTag (str "DIV") false, ParseToken.closeTag (str "P") false],
       false) := by
  exact ⟨by decide, by decide, by decide, by decide⟩

/-- C9: the tokenizer loop terminates within a number of steps linear in
the input length: any fuel of at least `2 * length + 1` produces the same
(final) token stream, and a loop iteration never moves the cursor
backwards (the remaining suffix never grows, even in the tag-abandoning
branch that consumes nothing). -/
theorem tokenizer_linear_termination :
    (∀ (s : Str) (st : TkState) (tag : Str) (f1 f2 : Nat),
      2 * s.length + 1 ≤ f1 → 2 * s.length + 1 ≤ f2 →
      tokenizeGo f1 s st tag = tokenizeGo f2 s st tag) ∧
    (∀ (s : Str) (st : TkState) (tag : Str) (out : List Token) (rest : Str)
      (st' : TkState) (tag' : Str), s ≠ [] →
      tokStep s st tag = StepRes.cont out rest st' tag' → rest.length ≤ s.length) := by
  constructor
  · intro s st tag f1 f2 h1 h2
    have hm : tkMeasure s st ≤ 2 * s.length + 1 := by
      rw [tkMeasure]
      have := stBonus_le_one st
      omega
    exact tokenizeGo_stable (2 * s.length + 1) s st tag f1 f2 hm
      (le_trans hm h1) (le_trans hm h2)
  · intro s st tag out rest st' tag' hs h
    have hlt := tokStep_cont_lt h hs
    rw [tkMeasure, tkMeasure] at hlt
    have h1 := stBonus_le_one st
    have h2 := stBonus_le_one st'
    omega

theorem tokenizer_linear_termination_witness :
    2 * (str "<p>").length + 1 ≤ 7 ∧ 2 * (str "<p>").length + 1 ≤ 50 ∧
    tokenizeGo 7 (str "<p>") TkState.inText [] =
      tokenizeGo 50 (str "<p>") TkState.inText [] :=
  ⟨by decide, by decide,
   tokenizer_linear_termination.1 (str "<p>") TkState.inText [] 7 50
     (by decide) (by decide)⟩

/-- C10: raw-text mode is entered only when the current tag is exactly the
lowercase string `script`: for any other tag the state after the tag end
is `inText`, and concretely `<SCRIPT>x</SCRIPT>` is tokenized as ordinary
HTML, with `x` as text and the element closed by the (case-insensitively
matched) closing tag rather than by raw-text scanning. -/
theorem script_mode_exact_match :
    (∀ (f : Nat) (s tag tok rest : Str),
      getAttributeName s = none → getTagEnd s = some (tok, rest) → tag ≠ str "script" →
      tokenizeGo (f + 1) s TkState.inTag tag =
        Token.openingTagEnd tag tok :: tokenizeGo f rest TkState.inText tag) ∧
    parse (str "<SCRIPT>x</SCRIPT>") =
      ([ParseToken.openTag (str "SCRIPT") [] false, ParseToken.text (str "x"),
        ParseToken.closeTag (str "SCRIPT") false], false) := by
  constructor
  · intro f s tag tok rest ha ht htag
    have hs : s ≠ [] := by
      intro he
      rw [he, show getTagEnd ([] : Str) = none from by decide] at ht
      exact Option.noConfusion ht
    have hstep : tokStep s TkState.inTag tag =
        StepRes.cont [Token.openingTagEnd tag tok] rest TkState.inText tag := by
      rw [tokStep.eq_def]
      dsimp only
      rw [ha, ht, if_neg htag]
    simpa using tokenizeGo_cons_cont (f := f) hs hstep
  · decide

theorem script_mode_exact_match_witness :
    getAttributeName (str ">") = none ∧ getTagEnd (str ">") = some (str ">", []) ∧
    tokenizeGo 1 (str ">") TkState.inTag (str "SCRIPT") =
      Token.openingTagEnd (str "SCRIPT") (str ">") ::
        tokenizeGo 0 [] TkState.inText (str "SCRIPT") :=
  ⟨by decide, by decide,
   script_mode_exact_match.1 0 (str ">") (str "SCRIPT") (str ">") []
     (by decide) (by decide) (by decide)⟩


end HtmlTok
